import Mathlib

/-!
# Verification of the sequence-aware text layout engine (blessed/sequences.py)

This file shallowly embeds the data model and operations of the
sequence-aware layout core: capability descriptors (`Termcap`), the
capability registry (`Terminal`), the tokenizer (`iterParse`), horizontal
movement normalization (`padd`), width measurement (`seqLength`),
justification, truncation, and the greedy line wrapper.

Strings are embedded as `List Char`.  Python exceptions are embedded with
`Except PyErr`.  Regular-expression matchers of individual capabilities are
embedded as functions `Char → List Char → Option (Nat × Option Int)`: applied
to the first character and the remainder of the text at a candidate position,
the matcher either fails or consumes `n` further characters from the
remainder (the matched text is the first character followed by those `n`) and
reports the captured numeral of its single group, when present.  This mirrors
anchored regular-expression matching: a successful match is nonempty and
consumes a prefix of the remaining input.
-/

set_option autoImplicit false

/-- Python exceptions that the embedded code can raise. `nonTermination`
stands for a diverging loop (the fuel of the wrap loop running out). -/
inductive PyErr where
  | valueError
  | typeError
  | zeroDivisionError
  | nonTermination
  deriving DecidableEq, Repr

/-- The Unicode width tables consumed from the wcwidth library: `wcw` is
`wcwidth` (per-character display width, -1 for nonprintable), `vs16` is
membership in the `VS16_NARROW_TO_WIDE` table (variation selector promotion). -/
structure WidthModel where
  wcw : Char → Int
  vs16 : Char → Bool

/-- Zero-width joiner U+200D. -/
def zwjChar : Char := Char.ofNat 0x200D

/-- Variation selector 16, U+FE0F. -/
def vs16Char : Char := Char.ofNat 0xFE0F

/-- Characters removed by `_CONTROL_CHAR_TABLE`:
C0 (U+0000-U+001F), DEL (U+007F) and C1 (U+0080-U+009F). -/
def isCtrl (c : Char) : Bool :=
  c.toNat < 0x20 || (0x7F ≤ c.toNat && c.toNat < 0xA0)

/-- `str.translate(_CONTROL_CHAR_TABLE)`: delete all C0/DEL/C1 characters. -/
def ctrlTranslate (s : List Char) : List Char :=
  s.filter (fun c => !isCtrl c)

/-- Contribution of a variation selector following `last`:
`_bisearch(ord(last), VS16_NARROW_TO_WIDE)`, 1 when found else 0. -/
def vs16Adj (wm : WidthModel) (last : Option Char) : Int :=
  match last with
  | some l => if wm.vs16 l then 1 else 0
  | none => 0

/-- The loop of `wcwidth.wcswidth`: walks the characters keeping the
accumulated width `acc` and the last measured character; a zero-width joiner
skips itself and the following character; VS-16 after a measured character
adds the promotion width; a character of negative width aborts with that
(negative) value, discarding the accumulator. -/
def wcswidthAux (wm : WidthModel) : List Char → Option Char → Int → Int
  | [], _, acc => acc
  | c :: rest, last, acc =>
    if c = zwjChar then
      match rest with
      | [] => acc
      | _ :: rest2 => wcswidthAux wm rest2 last acc
    else if c = vs16Char ∧ last ≠ none then
      wcswidthAux wm rest none (acc + vs16Adj wm last)
    else
      let w := wm.wcw c
      if w < 0 then w
      else wcswidthAux wm rest (if 0 < w then some c else last) (acc + w)

/-- `wcwidth.wcswidth(s)`. -/
def wcswidthModel (wm : WidthModel) (s : List Char) : Int :=
  wcswidthAux wm s none 0

/-- Terminal capability of given variable name and pattern
(class `Termcap`).  `hdistValue` is this capability's entry in
`CAPABILITIES_HORIZONTAL_DISTANCE` (absent for capabilities with no
registered column effect).  `tryMatch` embeds the compiled pattern,
see the module docstring. -/
structure Termcap where
  name : String
  nparams : Nat := 0
  hdistValue : Option Int := none
  tryMatch : Char → List Char → Option (Nat × Option Int)

/-- `re_compiled.match(text)`: anchored match of the capability's own
pattern against `text` (a match is nonempty, so empty text never matches). -/
def Termcap.reMatch (t : Termcap) : List Char → Option (Nat × Option Int)
  | [] => none
  | c :: rest => t.tryMatch c rest

/-- `Termcap.horizontal_distance`: 0 when the capability has no entry in
`CAPABILITIES_HORIZONTAL_DISTANCE`; the fixed distance when it takes no
parameters; otherwise the captured numeral times the per-unit distance,
`ValueError` when `text` does not match the capability's own pattern
(`typeError` stands for `int(None)` on a match without a captured group). -/
def Termcap.horizontal_distance (t : Termcap) (text : List Char) : Except PyErr Int :=
  match t.hdistValue with
  | none => .ok 0
  | some value =>
    if t.nparams ≠ 0 then
      match t.reMatch text with
      | some (_, some g) => .ok (value * g)
      | some (_, none) => .error .typeError
      | none => .error .valueError
    else .ok value

/-- Modelled from the spec: the capability registry (built by the excluded
`blessed.terminal` collaborator) is an ordered collection of capability
descriptors; the derived combined patterns (any capability; any capability or
any single character; capabilities with/without horizontal distance) are pure
functions of this ordered set, embedded below as scans that try each
descriptor's pattern in order at each position. -/
structure Terminal where
  caps : List Termcap

/-- Modelled from the spec: the capabilities carrying a horizontal-distance
entry, in registry order (`_hdist_caps_named_compiled`). -/
def Terminal.capsWithHdist (term : Terminal) : List Termcap :=
  term.caps.filter (fun t => t.hdistValue.isSome)

/-- Modelled from the spec: the capabilities without a horizontal-distance
entry, in registry order (`_caps_compiled_without_hdist`). -/
def Terminal.capsWithoutHdist (term : Terminal) : List Termcap :=
  term.caps.filter (fun t => t.hdistValue.isNone)

/-- First capability of `caps` (in order) whose pattern matches at the
position whose first character is `c` and remainder is `rest` — the
alternation of the combined pattern. -/
def findCapMatch (caps : List Termcap) (c : Char) (rest : List Char) :
    Option (Termcap × Nat × Option Int) :=
  caps.findSome? fun t => (t.tryMatch c rest).map fun m => (t, m.1, m.2)

/-- `caps_compiled.search(data) is not None`: some capability matches at some
position of `s`. -/
def hasCapMatch (caps : List Termcap) : List Char → Bool
  | [] => false
  | c :: rest => (findCapMatch caps c rest).isSome || hasCapMatch caps rest
termination_by s => s.length
decreasing_by all_goals simp

/-- `combined_pattern.sub("", s)`: remove every (leftmost, non-overlapping)
match of the given capabilities from `s`. -/
def subEmpty (caps : List Termcap) : List Char → List Char
  | [] => []
  | c :: rest =>
    match findCapMatch caps c rest with
    | none => c :: subEmpty caps rest
    | some (_, n, _) => subEmpty caps (rest.drop n)
termination_by s => s.length
decreasing_by all_goals simp [Nat.lt_succ_iff]

/-- `iter_parse(term, text)`: tokenize against the combined
capability-or-any-single-character pattern; a capability match yields the full
matched text tagged with its descriptor, the catch-all branch yields a single
character tagged with `none`. -/
def iterParse (term : Terminal) : List Char → List (List Char × Option Termcap)
  | [] => []
  | c :: rest =>
    match findCapMatch term.caps c rest with
    | some (t, n, _) => (c :: rest.take n, some t) :: iterParse term (rest.drop n)
    | none => ([c], none) :: iterParse term rest
termination_by s => s.length
decreasing_by all_goals simp [Nat.lt_succ_iff]

/-- The substitution loop of `Sequence.padd`: walk the matches of the
combined pattern of `caps` over the remaining input, copying unmatched text;
a positive horizontal distance becomes that many spaces, a negative one
deletes that many already-emitted characters from `outp`, a zero distance
keeps the matched text in place. -/
def paddCore (caps : List Termcap) (outp : List Char) :
    List Char → Except PyErr (List Char)
  | [] => .ok outp
  | c :: rest =>
    match findCapMatch caps c rest with
    | none => paddCore caps (outp ++ [c]) rest
    | some (t, n, _) =>
      match t.horizontal_distance (c :: rest.take n) with
      | .error e => .error e
      | .ok value =>
        paddCore caps
          (if 0 < value then outp ++ List.replicate value.toNat ' '
           else if value < 0 then outp.take (outp.length - value.natAbs)
           else outp ++ (c :: rest.take n))
          (rest.drop n)
termination_by s => s.length
decreasing_by all_goals simp [Nat.lt_succ_iff]

/-- `Sequence.padd(strip)`: fast path when no capability matches; when
`strip` is set, first remove all capabilities without horizontal distance,
fast path again when nothing remains to match, then resolve the
horizontal-distance capabilities; otherwise resolve all capabilities. -/
def padd (term : Terminal) (strip : Bool) (s : List Char) : Except PyErr (List Char) :=
  if hasCapMatch term.caps s = false then .ok s
  else if strip then
    let data := subEmpty term.capsWithoutHdist s
    if hasCapMatch term.caps data = false then .ok data
    else paddCore term.capsWithHdist [] data
  else paddCore term.caps [] s

/-- `Sequence.strip_seqs()` = `padd(strip=True)`. -/
def stripSeqs (term : Terminal) (s : List Char) : Except PyErr (List Char) :=
  padd term true s

/-- `Sequence.length()`: printable width of the stripped, control-character
free text. -/
def seqLength (wm : WidthModel) (term : Terminal) (s : List Char) : Except PyErr Int :=
  (padd term true s).map fun out => wcswidthModel wm (ctrlTranslate out)

deriving instance DecidableEq for Except

/-- Tokens of the tokenizer: matched text together with the optional
capability descriptor. -/
abbrev Tok := List Char × Option Termcap

/-- `''.flatten(text for text, cap in parsed_seq if cap)`: concatenation of the
texts of the capability tokens. -/
def capTextsJoin (toks : List Tok) : List Char :=
  (toks.filterMap fun tk => if tk.2.isSome then some tk.1 else none).flatten

/-- The scanning loop of `Sequence.truncate`: consume tokens keeping the
output built so far, the accumulated printable width, the last measured
character and the skip-after-ZWJ flag; capability tokens are appended
unmeasured; a zero-width joiner is appended and suppresses measurement of the
next character token; VS-16 after a measured character may add the promotion
width; any other character is measured by `wcwidth` clamped at 0; the loop
stops (returning the unconsumed tokens) as soon as the accumulated width
exceeds the target, before appending the offending character. -/
def truncGo (wm : WidthModel) (target : Int) :
    List Tok → List Char → Int → Option Char → Bool → (List Char × List Tok)
  | [], outp, _, _, _ => (outp, [])
  | (text, some _) :: ts, outp, cw, last, skip =>
    truncGo wm target ts (outp ++ text) cw last skip
  | (text, none) :: ts, outp, cw, last, skip =>
    match text with
    | [c] =>
      if c = zwjChar then truncGo wm target ts (outp ++ text) cw last true
      else if skip then truncGo wm target ts (outp ++ text) cw last false
      else if c = vs16Char ∧ last ≠ none then
        let cw2 := cw + vs16Adj wm last
        if target < cw2 then (outp, ts)
        else truncGo wm target ts (outp ++ text) cw2 none false
      else
        let w := wm.wcw c
        let last2 := if 0 < w then some c else last
        let cw2 := cw + max w 0
        if target < cw2 then (outp, ts)
        else truncGo wm target ts (outp ++ text) cw2 last2 false
    | _ =>
      -- unreachable from iterParse: catch-all tokens are single characters
      truncGo wm target ts (outp ++ text) cw last skip

/-- `Sequence.truncate(width)`: expand horizontal movement by `padd()`,
retain text until the printable width would exceed `width`, then append all
remaining capability sequences of the tail. -/
def seqTruncate (wm : WidthModel) (term : Terminal) (s : List Char) (width : Int) :
    Except PyErr (List Char) :=
  (padd term false s).map fun data =>
    let res := truncGo wm width (iterParse term data) [] 0 none false
    res.1 ++ capTextsJoin res.2

/-- `fillchar * n`. -/
def strRepeat (fill : List Char) (n : Nat) : List Char :=
  (List.replicate n fill).flatten

/-- `Sequence.ljust(width, fillchar)`: append
`fillchar * int(max(0, width - length()) / len(fillchar))`; division by the
length of an empty fill string raises `ZeroDivisionError`. -/
def seqLjust (wm : WidthModel) (term : Terminal) (s : List Char) (width : Int)
    (fillchar : List Char) : Except PyErr (List Char) := do
  let len ← seqLength wm term s
  if fillchar.length = 0 then .error .zeroDivisionError
  else .ok (s ++ strRepeat fillchar ((max 0 (width - len)).toNat / fillchar.length))

/-- `Sequence.rjust(width, fillchar)`: as `ljust`, prepending. -/
def seqRjust (wm : WidthModel) (term : Terminal) (s : List Char) (width : Int)
    (fillchar : List Char) : Except PyErr (List Char) := do
  let len ← seqLength wm term s
  if fillchar.length = 0 then .error .zeroDivisionError
  else .ok (strRepeat fillchar ((max 0 (width - len)).toNat / fillchar.length) ++ s)

/-- `Sequence.center(width, fillchar)`: the deficit is halved with floor on
the left and ceiling on the right, each half divided by the fill length. -/
def seqCenter (wm : WidthModel) (term : Terminal) (s : List Char) (width : Int)
    (fillchar : List Char) : Except PyErr (List Char) := do
  let len ← seqLength wm term s
  if fillchar.length = 0 then .error .zeroDivisionError
  else
    let d := (max 0 (width - len)).toNat
    .ok (strRepeat fillchar ((d / 2) / fillchar.length) ++ s ++
         strRepeat fillchar (((d + 1) / 2) / fillchar.length))

/-- Python `str` whitespace (ASCII subset). -/
def isPySpace (c : Char) : Bool :=
  c = ' ' ∨ c = '\t' ∨ c = '\n' ∨ c = '\r' ∨ c = Char.ofNat 0x0B ∨ c = Char.ofNat 0x0C

/-- `str.lstrip()`. -/
def pyLStrip (s : List Char) : List Char := s.dropWhile isPySpace

/-- `str.rstrip()`. -/
def pyRStrip (s : List Char) : List Char := (s.reverse.dropWhile isPySpace).reverse

/-- `str.strip()`. -/
def pyStrip (s : List Char) : List Char := pyRStrip (pyLStrip s)

/-- `Sequence.strip()`: ordinary whitespace trimming of the
sequence-stripped form. -/
def seqStrip (term : Terminal) (s : List Char) : Except PyErr (List Char) :=
  (stripSeqs term s).map pyStrip

/-- Sum of the measured lengths of the chunks of a line
(`sum(Sequence(chunk, term).length() for chunk in cur_line)`). -/
def sumLengths (wm : WidthModel) (term : Terminal) :
    List (List Char) → Except PyErr Int
  | [] => .ok 0
  | c :: cs => do
    let l ← seqLength wm term c
    let r ← sumLengths wm term cs
    .ok (l + r)

/-- Configuration of `SequenceTextWrapper` (the `textwrap.TextWrapper`
attributes used by `_wrap_chunks` and `_handle_long_word`). -/
structure WrapConfig where
  width : Int
  initial_indent : List Char := []
  subsequent_indent : List Char := []
  drop_whitespace : Bool := true
  break_long_words : Bool := true
  break_on_hyphens : Bool := true
  max_lines : Option Int := none
  placeholder : List Char := " [...]".data

/-- The token scan of `SequenceTextWrapper._handle_long_word`: accumulate
tokens while the measured width fits in `space_left` (with the single
allowance for a 2-cell glyph at width 1), tracking the byte index `idx` of
the last token that fit and the index after the last hyphen character that
was preceded by non-hyphen text.  Returns `(idx, last_hyphen_idx)`. -/
def hlwScan (wm : WidthModel) (term : Terminal) (space_left cur_len width : Int) :
    List Tok → Nat → Nat → Int → Nat → Bool → Except PyErr (Nat × Nat)
  | [], idx, _, _, lhi, _ => .ok (idx, lhi)
  | (text, cap) :: ts, idx, nxt, seqLen, lhi, lhnh => do
    let nxt2 := nxt + text.length
    let l ← seqLength wm term text
    let seqLen2 := seqLen + l
    if seqLen2 > space_left ∧ ¬(cur_len = 0 ∧ width = 1 ∧ nxt2 = 1 ∧ seqLen2 = 2) then
      .ok (idx, lhi)
    else
      let p :=
        match cap with
        | none =>
          if text = ['-'] then (if lhnh then (nxt2, lhnh) else (lhi, lhnh))
          else (lhi, true)
        | some _ => (lhi, lhnh)
      hlwScan wm term space_left cur_len width ts nxt2 nxt2 seqLen2 p.1 p.2

/-- `SequenceTextWrapper._handle_long_word`: when breaking is allowed and
space remains, split the top chunk at the width-scanned index (preferring the
last hyphen boundary when configured), leaving the remainder on top of the
chunk stack; when breaking is not allowed, move the whole chunk onto the
empty current line; otherwise leave everything unchanged.  Returns the new
`(chunks, cur_line)`. -/
def handleLongWord (wm : WidthModel) (term : Terminal) (cfg : WrapConfig)
    (chunks cur_line : List (List Char)) (cur_len width : Int) :
    Except PyErr (List (List Char) × List (List Char)) :=
  let space_left := if width < 1 then 1 else width - cur_len
  if cfg.break_long_words ∧ space_left > 0 then
    match chunks with
    | [] => .ok (chunks, cur_line)
    | chunk :: rest => do
      let r ← hlwScan wm term space_left cur_len width (iterParse term chunk) 0 0 0 0 false
      let idx := if cfg.break_on_hyphens ∧ r.2 > 0 then r.2 else r.1
      .ok ((chunk.drop idx) :: rest, cur_line ++ [chunk.take idx])
  else if cur_line = [] then
    match chunks with
    | [] => .ok ([], cur_line)
    | chunk :: rest => .ok (rest, cur_line ++ [chunk])
  else .ok (chunks, cur_line)

/-- The inner `while chunks` loop of `_wrap_chunks`: pop chunks onto the
current line while they fit; a chunk too big for any line triggers
`_handle_long_word` (after which `cur_len` is recomputed) and stops the line;
a chunk that merely does not fit the remaining space stops the line.  Returns
`(chunks, cur_line, cur_len)`. -/
def fillLine (wm : WidthModel) (term : Terminal) (cfg : WrapConfig) (width : Int) :
    List (List Char) → List (List Char) → Int →
    Except PyErr (List (List Char) × List (List Char) × Int)
  | [], cur_line, cur_len => .ok ([], cur_line, cur_len)
  | chunk :: rest, cur_line, cur_len => do
    let clen ← seqLength wm term chunk
    if clen > width then do
      let r ← handleLongWord wm term cfg (chunk :: rest) cur_line cur_len width
      let cur_len2 ← sumLengths wm term r.2
      .ok (r.1, r.2, cur_len2)
    else if cur_len + clen > width then
      .ok (chunk :: rest, cur_line, cur_len)
    else
      fillLine wm term cfg width rest (cur_line ++ [chunk]) (cur_len + clen)

/-- Lines 262-263 of `_wrap_chunks`: at the start of a line other than the
very first, with `drop_whitespace` configured, a first chunk whose
sequence-aware `strip()` is empty is deleted from the chunk stack. -/
def dropLeadingWS (term : Terminal) (cfg : WrapConfig)
    (lines chunks : List (List Char)) : Except PyErr (List (List Char)) :=
  match chunks with
  | [] => .ok []
  | c :: rest =>
    if cfg.drop_whitespace ∧ lines ≠ [] then do
      let st ← seqStrip term c
      if st = [] then .ok rest else .ok (c :: rest)
    else .ok (c :: rest)

/-- Lines 281-285 of `_wrap_chunks`: with `drop_whitespace` configured, a
last chunk of the completed line whose sequence-aware `strip()` is empty is
removed and its measured length subtracted from `cur_len`. -/
def dropTrailingWS (wm : WidthModel) (term : Terminal) (cfg : WrapConfig)
    (cur_line : List (List Char)) (cur_len : Int) :
    Except PyErr (List (List Char) × Int) :=
  if cfg.drop_whitespace ∧ cur_line ≠ [] then do
    let c := cur_line.getLast?.getD []
    let st ← seqStrip term c
    if st = [] then do
      let l ← seqLength wm term c
      .ok (cur_line.dropLast, cur_len - l)
    else .ok (cur_line, cur_len)
  else .ok (cur_line, cur_len)

/-- The emission condition of lines 288-298 of `_wrap_chunks` (when it holds
the current line is appended as-is; otherwise max-line truncation begins). -/
def emitCond (cfg : WrapConfig) (lines chunks : List (List Char))
    (cur_len width : Int) : Bool :=
  match cfg.max_lines with
  | none => true
  | some m =>
    decide ((lines.length : Int) + 1 < m) ||
    ((chunks.isEmpty ||
      (cfg.drop_whitespace && decide (chunks.length = 1) &&
        (pyStrip (chunks.headD [])).isEmpty)) && decide (cur_len ≤ width))

/-- The max-line truncation loop (lines 302-316 of `_wrap_chunks`),
processing the current line from its end (the argument is the reversed
current line): drop trailing chunks until the placeholder fits after a chunk
with visible content; if none is left, append the placeholder to the previous
line when it fits there after right-stripping, else emit the left-stripped
placeholder on its own line. -/
def phBacktrackRev (wm : WidthModel) (term : Terminal) (cfg : WrapConfig)
    (indent : List Char) (width : Int) (lines : List (List Char)) :
    List (List Char) → Int → Except PyErr (List (List Char))
  | [], _ =>
    .ok (match lines.getLast? with
      | some lastLine =>
        let prev := pyRStrip lastLine
        if (prev.length : Int) + cfg.placeholder.length ≤ cfg.width
        then lines.dropLast ++ [prev ++ cfg.placeholder]
        else lines ++ [indent ++ pyLStrip cfg.placeholder]
      | none => lines ++ [indent ++ pyLStrip cfg.placeholder])
  | c :: cs, cur_len => do
    let st ← seqStrip term c
    if st ≠ [] ∧ cur_len + (cfg.placeholder.length : Int) ≤ width then
      .ok (lines ++ [indent ++ ((c :: cs).reverse ++ [cfg.placeholder]).flatten])
    else do
      let l ← seqLength wm term c
      phBacktrackRev wm term cfg indent width lines cs (cur_len - l)

/-- The outer `while chunks` loop of `_wrap_chunks`, with explicit fuel (the
Python loop can fail to make progress for exotic width models; running out of
fuel is reported as `nonTermination`). -/
def wrapLoop (wm : WidthModel) (term : Terminal) (cfg : WrapConfig) :
    Nat → List (List Char) → List (List Char) → Except PyErr (List (List Char))
  | _, lines, [] => .ok lines
  | 0, _, _ :: _ => .error .nonTermination
  | fuel + 1, lines, c0 :: crest => do
    let indent := if lines ≠ [] then cfg.subsequent_indent else cfg.initial_indent
    let width := cfg.width - indent.length
    let chunks ← dropLeadingWS term cfg lines (c0 :: crest)
    let r ← fillLine wm term cfg width chunks [] 0
    let d ← dropTrailingWS wm term cfg r.2.1 r.2.2
    if d.1 ≠ [] then
      if emitCond cfg lines r.1 d.2 width then
        wrapLoop wm term cfg fuel (lines ++ [indent ++ d.1.flatten]) r.1
      else
        phBacktrackRev wm term cfg indent width lines d.1.reverse d.2
    else
      wrapLoop wm term cfg fuel lines r.1

/-- Fuel that is ample for the concrete runs considered in this file. -/
def wrapFuel (chunks : List (List Char)) : Nat :=
  chunks.foldl (fun a c => a + c.length + 2) 2

/-- `SequenceTextWrapper._wrap_chunks`: validation of the width and of the
placeholder/indent configuration happens before any wrapping work; then the
greedy wrap loop runs. -/
def wrapChunks (wm : WidthModel) (term : Terminal) (cfg : WrapConfig)
    (chunks : List (List Char)) : Except PyErr (List (List Char)) :=
  if cfg.width ≤ 0 then .error .valueError
  else
    match cfg.max_lines with
    | some m =>
      let indent := if 1 < m then cfg.subsequent_indent else cfg.initial_indent
      if (indent.length : Int) + (pyLStrip cfg.placeholder).length > cfg.width
      then .error .valueError
      else wrapLoop wm term cfg (wrapFuel chunks) [] chunks
    | none => wrapLoop wm term cfg (wrapFuel chunks) [] chunks

/-- Characters escaped by Python 3.10 `re.escape`
(`_special_chars_map`: `()[]{}?*+-|^$\.&~# \t\n\r\v\f`). -/
def isSpecialChar (c : Char) : Bool :=
  ("()[]{}?*+-|^$\\.&~# \t\n\r\x0b\x0c".data).contains c

/-- `re.escape(s)`: prefix every special character with a backslash. -/
def reEscape (s : List Char) : List Char :=
  (s.map fun c => if isSpecialChar c then ['\\', c] else [c]).flatten

/-- Decimal digits of a natural number, most significant first (`str(n)`). -/
def natStr (n : Nat) : List Char :=
  if n < 10 then [Nat.digitChar n]
  else natStr (n / 10) ++ [Nat.digitChar (n % 10)]
decreasing_by exact Nat.div_lt_self (by omega) (by omega)

/-- `str(i)` for a Python integer. -/
def intStr (i : Int) : List Char :=
  if i < 0 then '-' :: natStr i.natAbs else natStr i.toNat

/-- Python `needle in hay` for strings. -/
def isSubstr (needle : List Char) : List Char → Bool
  | [] => needle.isEmpty
  | c :: rest => needle.isPrefixOf (c :: rest) || isSubstr needle rest

/-- Python `str.replace(old, new)`: replace every non-overlapping occurrence,
left to right. -/
def replaceAll (old new : List Char) : List Char → List Char
  | [] => []
  | c :: rest =>
    if ho : old ≠ [] ∧ old.isPrefixOf (c :: rest) then
      new ++ replaceAll old new ((c :: rest).drop old.length)
    else c :: replaceAll old new rest
termination_by s => s.length
decreasing_by
  · simp only [List.length_drop, List.length_cons]
    have := List.length_pos.mpr ho.1
    omega
  · simp

/-- `re.sub(r'\d+', repl, s)`: replace every maximal digit run by `repl`. -/
def reSubDigits (repl : List Char) : List Char → List Char
  | [] => []
  | c :: rest =>
    if c.isDigit then repl ++ reSubDigits repl (rest.dropWhile Char.isDigit)
    else c :: reSubDigits repl rest
termination_by s => s.length
decreasing_by
  · simp only [List.length_cons]
    exact Nat.lt_succ_of_le (List.dropWhile_sublist _).length_le
  · simp

/-- The numeric placeholder chosen by `Termcap.build`:
`(\d+)?` when optional, `(\d+)` when grouped, `\d+` otherwise. -/
def numericRegexOf (match_grouped match_optional : Bool) : List Char :=
  if match_optional then "(\\d+)?".data
  else if match_grouped then "(\\d+)".data
  else "\\d+".data

/-- The parameterized branch of `Termcap.build` (nparams > 0): escape the
probe output `capability(numeric, ...)`; unless `match_any`, look for the
first of `numeric - 1`, `numeric`, `numeric + 1` occurring as a substring and
replace its every occurrence by the numeric placeholder; otherwise (or when
none of the three is found) replace every digit run by the placeholder. -/
def termcapBuildPattern (outpRaw : List Char) (numeric : Int)
    (match_grouped match_any match_optional : Bool) : List Char :=
  let nre := numericRegexOf match_grouped match_optional
  let outp := reEscape outpRaw
  match (if match_any then none
         else [numeric - 1, numeric, numeric + 1].find?
           (fun k => isSubstr (intStr k) outp)) with
  | some k => replaceAll (intStr k) nre outp
  | none => reSubDigits nre outp

/-- The static branch of `Termcap.build` (nparams = 0): the escaped literal
capability. -/
def termcapBuildStatic (capability : List Char) : List Char :=
  reEscape capability

/-- A width model with no wide characters and no VS-16 promotions:
control characters are nonprintable (-1), everything else has width 1. -/
def wmStd : WidthModel :=
  { wcw := fun c => if isCtrl c then -1 else 1, vs16 := fun _ => false }

/-- Matcher of an escaped literal pattern: matches exactly the literal. -/
def litMatch (lit : List Char) (c : Char) (rest : List Char) :
    Option (Nat × Option Int) :=
  match lit with
  | [] => none
  | l :: ls => if c = l ∧ ls.isPrefixOf rest then some (ls.length, none) else none

/-- Numeric value of a digit run. -/
def digitsVal (ds : List Char) : Int :=
  (ds.foldl (fun a c => a * 10 + (c.toNat - 48)) 0 : Nat)

/-- Matcher of the pattern `\x1bD(\d+)` (an ESC-D cursor capability taking
one numeric argument, in the style of `parm_left_cursor`). -/
def escDMatch (c : Char) (rest : List Char) : Option (Nat × Option Int) :=
  if c = '\x1b' then
    match rest with
    | 'D' :: rest2 =>
      let ds := rest2.takeWhile Char.isDigit
      if ds.isEmpty then none else some (1 + ds.length, some (digitsVal ds))
    | _ => none
  else none

/-- `clear_screen`-style literal capability, no column effect. -/
def clearCap : Termcap :=
  { name := "clear", tryMatch := litMatch ("\x1b[2J".data) }

/-- `cursor_left`-style capability `\b`, horizontal distance -1. -/
def cub1Cap : Termcap :=
  { name := "cub1", hdistValue := some (-1), tryMatch := litMatch ("\x08".data) }

/-- Registry with a screen-clear literal and a backspace movement. -/
def demoTerm : Terminal := { caps := [clearCap, cub1Cap] }

/-- Literal capability `b\x1bD0` with fixed horizontal distance -2. -/
def eCap : Termcap :=
  { name := "ecap", hdistValue := some (-2), tryMatch := litMatch ("b\x1bD0".data) }

/-- Parameterized capability `\x1bD(\d+)` with per-unit distance -1. -/
def dCap : Termcap :=
  { name := "dcap", nparams := 1, hdistValue := some (-1), tryMatch := escDMatch }

/-- Registry with the two movement capabilities above. -/
def term3 : Terminal := { caps := [eCap, dCap] }

/-- Color-start literal capability, no column effect. -/
def colorCap : Termcap :=
  { name := "color", tryMatch := litMatch ("\x1b[31m".data) }

/-- Style-reset literal capability, no column effect. -/
def resetCap : Termcap :=
  { name := "sgr0", tryMatch := litMatch ("\x1b[0m".data) }

/-- Registry with a color-start and a reset capability. -/
def colorTerm : Terminal := { caps := [colorCap, resetCap] }

/-- Registry with no capabilities at all. -/
def emptyTerm : Terminal := { caps := [] }

/-- Concatenation of all token texts, in order. -/
def tokTexts (toks : List Tok) : List Char :=
  (toks.map Prod.fst).flatten

theorem findCapMatch_mem {caps : List Termcap} {c : Char} {rest : List Char}
    {t : Termcap} {n : Nat} {g : Option Int}
    (h : findCapMatch caps c rest = some (t, n, g)) : t ∈ caps := by
  unfold findCapMatch at h
  obtain ⟨a, ha, hfa⟩ := List.exists_of_findSome?_eq_some h
  obtain ⟨m, hm, hEq⟩ := Option.map_eq_some'.mp hfa
  cases hEq
  exact ha

theorem iterParse_tokTexts (term : Terminal) (s : List Char) :
    tokTexts (iterParse term s) = s := by
  induction s using iterParse.induct term with
  | case1 => simp [iterParse, tokTexts]
  | case2 c rest t n g h ih =>
    simp only [iterParse, h, tokTexts, List.map_cons, List.flatten_cons]
    simpa [tokTexts] using congrArg (List.cons c · ) (by
      simpa [tokTexts] using congrArg (rest.take n ++ ·) ih)
  | case3 c rest h ih =>
    simp only [iterParse, h, tokTexts, List.map_cons, List.flatten_cons]
    simpa [tokTexts] using ih

theorem iterParse_tok_shape (term : Terminal) (s : List Char) :
    ∀ tk ∈ iterParse term s,
      (tk.2 = none → tk.1.length = 1) ∧ ∀ t, tk.2 = some t → t ∈ term.caps := by
  induction s using iterParse.induct term with
  | case1 => simp [iterParse]
  | case2 c rest t n g h ih =>
    simp only [iterParse, h, List.mem_cons]
    rintro tk (rfl | htk)
    · exact ⟨by simp, fun u hu => by cases hu; exact findCapMatch_mem h⟩
    · exact ih tk htk
  | case3 c rest h ih =>
    simp only [iterParse, h, List.mem_cons]
    rintro tk (rfl | htk)
    · exact ⟨fun _ => rfl, by simp⟩
    · exact ih tk htk

/-- C1: concatenating, in order, the text fields of all tokens produced by
`iter_parse(registry, s)` reproduces `s` exactly, and every token is either a
full capability match tagged with its descriptor (a capability of the
registry) or a single plain character tagged with no capability. -/
theorem c1_iterParse_partition (term : Terminal) (s : List Char) :
    tokTexts (iterParse term s) = s ∧
    ∀ tk ∈ iterParse term s,
      (tk.2 = none → tk.1.length = 1) ∧ ∀ t, tk.2 = some t → t ∈ term.caps :=
  ⟨iterParse_tokTexts term s, iterParse_tok_shape term s⟩

/-- C6: `horizontal_distance(text)` returns 0 when the capability has no
registered column effect; the fixed distance when it takes no arguments; the
captured numeral times the per-unit distance when it takes one argument and
`text` matches the capability's own pattern; and it raises `ValueError` if
and only if (in the one-argument case) `text` does not match that pattern. -/
theorem c6_horizontal_distance (t : Termcap) (text : List Char) :
    (t.hdistValue = none → t.horizontal_distance text = .ok 0) ∧
    (∀ v, t.hdistValue = some v → t.nparams = 0 →
      t.horizontal_distance text = .ok v) ∧
    (∀ v n g, t.hdistValue = some v → t.nparams ≠ 0 →
      t.reMatch text = some (n, some g) →
      t.horizontal_distance text = .ok (v * g)) ∧
    (∀ v, t.hdistValue = some v → t.nparams ≠ 0 →
      (t.horizontal_distance text = .error .valueError ↔ t.reMatch text = none)) := by
  refine ⟨?_, ?_, ?_, ?_⟩
  · intro h
    simp [Termcap.horizontal_distance, h]
  · intro v hv h0
    simp [Termcap.horizontal_distance, hv, h0]
  · intro v n g hv hn hm
    simp [Termcap.horizontal_distance, hv, hn, hm]
  · intro v hv hn
    simp only [Termcap.horizontal_distance, hv, hn, if_pos, ne_eq, not_false_iff, if_true]
    cases hrm : t.reMatch text with
    | none => simp
    | some m =>
      obtain ⟨mn, mg⟩ := m
      cases mg <;> simp

/-- Witness for C6 at the parameterized capability `dCap`
(`\x1bD(\d+)`, per-unit distance -1): a matching text yields the product,
a non-matching text yields `ValueError`. -/
theorem c6_witness :
    dCap.horizontal_distance ("\x1bD5".data) = .ok (-5) ∧
    dCap.horizontal_distance ("zz".data) = .error .valueError := by
  constructor
  · have h := (c6_horizontal_distance dCap ("\x1bD5".data)).2.2.1 (-1) 2 5
      (by decide) (by decide) (by decide)
    simpa using h
  · exact ((c6_horizontal_distance dCap ("zz".data)).2.2.2 (-1)
      (by decide) (by decide)).mpr (by decide)

theorem digitChar_isDigit {n : Nat} (h : n < 10) :
    (Nat.digitChar n).isDigit = true := by
  interval_cases n <;> decide

theorem natStr_has_digit (n : Nat) : ∃ c ∈ natStr n, c.isDigit = true := by
  rw [natStr]
  split
  · exact ⟨Nat.digitChar n, by simp, digitChar_isDigit (by omega)⟩
  · exact ⟨Nat.digitChar (n % 10), by simp, digitChar_isDigit (Nat.mod_lt _ (by omega))⟩

theorem intStr_has_digit (i : Int) : ∃ c ∈ intStr i, c.isDigit = true := by
  rw [intStr]
  split
  · obtain ⟨c, hc, hd⟩ := natStr_has_digit i.natAbs
    exact ⟨c, List.mem_cons_of_mem _ hc, hd⟩
  · exact natStr_has_digit i.toNat

theorem isSubstr_mem {needle hay : List Char} (h : isSubstr needle hay = true) :
    ∀ c ∈ needle, c ∈ hay := by
  induction hay with
  | nil =>
    simp only [isSubstr, List.isEmpty_iff] at h
    simp [h]
  | cons x rest ih =>
    simp only [isSubstr, Bool.or_eq_true] at h
    intro c hc
    rcases h with h | h
    · exact (List.isPrefixOf_iff_prefix.mp h).subset hc
    · exact List.mem_cons_of_mem _ (ih h c hc)

theorem reEscape_chars {c : Char} {s : List Char} (h : c ∈ reEscape s) :
    c = '\\' ∨ c ∈ s := by
  simp only [reEscape, List.mem_flatten, List.mem_map] at h
  obtain ⟨l, ⟨x, hx, rfl⟩, hcl⟩ := h
  by_cases hs : isSpecialChar x = true
  · simp [hs] at hcl
    rcases hcl with rfl | rfl
    · exact Or.inl rfl
    · exact Or.inr hx
  · simp [hs] at hcl
    subst hcl
    exact Or.inr hx

theorem reSubDigits_of_no_digit {repl s : List Char}
    (h : ∀ c ∈ s, c.isDigit = false) : reSubDigits repl s = s := by
  induction s with
  | nil => simp [reSubDigits]
  | cons c rest ih =>
    rw [reSubDigits]
    have hc : c.isDigit = false := h c (by simp)
    simp only [hc, Bool.false_eq_true, if_false, List.cons.injEq, true_and]
    exact ih fun x hx => h x (List.mem_cons_of_mem _ hx)

/-- C8: in the registry builder's parameterized branch, with `any_numeric`
unset the numeral to replace is searched for among
`numeric - 1, numeric, numeric + 1` (in that order) in the escaped probe
output, and the first hit is the one replaced by the numeric placeholder;
when the probe output contains no numeral at all, the resulting pattern is
the escaped literal probe output (and no exception is raised: the builder is
total). -/
theorem c8_build_pattern :
    (∀ (outpRaw : List Char) (numeric : Int) (g o : Bool) (k : Int),
      [numeric - 1, numeric, numeric + 1].find?
          (fun j => isSubstr (intStr j) (reEscape outpRaw)) = some k →
      termcapBuildPattern outpRaw numeric g false o =
        replaceAll (intStr k) (numericRegexOf g o) (reEscape outpRaw)) ∧
    (∀ (outpRaw : List Char) (numeric : Int) (g a o : Bool),
      (∀ c ∈ outpRaw, c.isDigit = false) →
      termcapBuildPattern outpRaw numeric g a o = reEscape outpRaw) := by
  constructor
  · intro outpRaw numeric g o k h
    simp [termcapBuildPattern, h]
  · intro outpRaw numeric g a o h
    have hesc : ∀ c ∈ reEscape outpRaw, c.isDigit = false := by
      intro c hc
      rcases reEscape_chars hc with rfl | hc2
      · decide
      · exact h c hc2
    have hfind : ∀ j : Int, isSubstr (intStr j) (reEscape outpRaw) = false := by
      intro j
      by_contra hcontra
      obtain ⟨c, hc, hd⟩ := intStr_has_digit j
      have := hesc c (isSubstr_mem (by revert hcontra; cases isSubstr (intStr j) (reEscape outpRaw) <;> simp) c hc)
      rw [this] at hd
      exact Bool.false_ne_true hd
    have : (if a then none
        else [numeric - 1, numeric, numeric + 1].find?
          (fun j => isSubstr (intStr j) (reEscape outpRaw))) = none := by
      cases a
      · simp [List.find?_cons, hfind]
      · simp
    simp only [termcapBuildPattern, this]
    exact reSubDigits_of_no_digit hesc

unseal natStr replaceAll in
/-- Witness for C8: probing `\x1bD` with 99 finds 99 (after trying 98) and
yields the grouped placeholder pattern; a digit-free probe output is kept as
its escaped literal. -/
theorem c8_witness :
    termcapBuildPattern ("\x1bD99".data) 99 true false false = "\x1bD(\\d+)".data ∧
    termcapBuildPattern ("\x1bM".data) 99 true false false = reEscape ("\x1bM".data) := by
  constructor
  · have h := c8_build_pattern.1 ("\x1bD99".data) 99 true false 99 (by decide)
    rw [h]
    decide
  · exact c8_build_pattern.2 ("\x1bM".data) 99 true false false (by decide)

unseal paddCore subEmpty hasCapMatch in
/-- Counterexample to C5 as stated: with a screen-clear literal `\x1b[2J` and
a backspace capability `\b` (distance -1), stripping `"\x1bQ\b[2J"` erases
the `Q` and splices the remainder into `"\x1b[2J"`, which a second strip
removes entirely — `strip_seqs(strip_seqs(s)) = "" ≠ strip_seqs(s)`. -/
theorem c5_counterexample :
    stripSeqs demoTerm ("\x1bQ\x08[2J".data) = .ok ("\x1b[2J".data) ∧
    stripSeqs demoTerm ("\x1b[2J".data) = .ok ([] : List Char) ∧
    ("\x1b[2J".data : List Char) ≠ [] :=
  ⟨by decide, by decide, by decide⟩

/-- C5 amended: `strip_seqs` is idempotent on every string whose stripped
form contains no further capability match (erasure and padding can splice a
new capability occurrence into the stripped output, in which case a second
strip differs). -/
theorem c5_stripSeqs_idempotent (term : Terminal) (s r : List Char)
    (h : stripSeqs term s = .ok r) (hr : hasCapMatch term.caps r = false) :
    stripSeqs term r = .ok r := by
  have := h
  simp [stripSeqs, padd, hr]

unseal paddCore subEmpty hasCapMatch in
/-- Witness for the amended C5: `"ab\bc"` strips to `"ac"`, which contains no
capability match, and stripping again returns `"ac"` unchanged. -/
theorem c5_witness : stripSeqs demoTerm ("ac".data) = .ok ("ac".data) :=
  c5_stripSeqs_idempotent demoTerm ("ab\x08c".data) ("ac".data)
    (by decide) (by decide)

unseal paddCore subEmpty hasCapMatch in
/-- Counterexample to C10 as stated: `center("xx", 4, "ab")` returns `"xx"`
with no padding at all, although the claimed pad count
`floor(max(0, width - length()) / len(fillchar))` evaluates to 1 (the deficit
is halved before the division, and each half of 1 divided by the fill length
2 gives 0). -/
theorem c10_counterexample :
    seqCenter wmStd demoTerm ("xx".data) 4 ("ab".data) = .ok ("xx".data) ∧
    seqLength wmStd demoTerm ("xx".data) = .ok 2 ∧
    (max 0 ((4 : Int) - 2)).toNat / ("ab".data).length = 1 :=
  ⟨by decide, by decide, by decide⟩

/-- C10 amended: with a non-empty fill string, `ljust` and `rjust` return
normally with pad count `floor(max(0, width - length()) / len(fillchar))`,
while `center` splits the deficit into floor and ceiling halves and divides
each half by the fill length; with an empty fill string and width exceeding
the measured length, all three fail with a division-by-zero error. -/
theorem c10_justify (wm : WidthModel) (term : Terminal) (s : List Char)
    (width : Int) (fillchar : List Char) (L : Int)
    (hL : seqLength wm term s = .ok L) :
    (fillchar ≠ [] →
      seqLjust wm term s width fillchar =
        .ok (s ++ strRepeat fillchar ((max 0 (width - L)).toNat / fillchar.length)) ∧
      seqRjust wm term s width fillchar =
        .ok (strRepeat fillchar ((max 0 (width - L)).toNat / fillchar.length) ++ s) ∧
      seqCenter wm term s width fillchar =
        .ok (strRepeat fillchar (((max 0 (width - L)).toNat / 2) / fillchar.length) ++ s ++
             strRepeat fillchar ((((max 0 (width - L)).toNat + 1) / 2) / fillchar.length))) ∧
    (fillchar = [] → L < width →
      seqLjust wm term s width fillchar = .error .zeroDivisionError ∧
      seqRjust wm term s width fillchar = .error .zeroDivisionError ∧
      seqCenter wm term s width fillchar = .error .zeroDivisionError) := by
  constructor
  · intro hfc
    have hlen : fillchar.length ≠ 0 := by
      simpa [List.length_eq_zero] using hfc
    refine ⟨?_, ?_, ?_⟩ <;>
      simp [seqLjust, seqRjust, seqCenter, hL, hlen, Bind.bind, Except.bind]
  · intro hfc _
    subst hfc
    refine ⟨?_, ?_, ?_⟩ <;>
      simp [seqLjust, seqRjust, seqCenter, hL, Bind.bind, Except.bind]

unseal paddCore subEmpty hasCapMatch in
/-- Witness for the amended C10: `ljust("xx", 5, "ab")` pads with one copy of
the fill, and an empty fill string raises the division error. -/
theorem c10_witness :
    seqLjust wmStd demoTerm ("xx".data) 5 ("ab".data) = .ok ("xxab".data) ∧
    seqLjust wmStd demoTerm ("xx".data) 5 [] = .error .zeroDivisionError := by
  constructor
  · have h := ((c10_justify wmStd demoTerm ("xx".data) 5 ("ab".data) 2 (by decide)).1
      (by decide)).1
    rw [h]
    decide
  · exact ((c10_justify wmStd demoTerm ("xx".data) 5 [] 2 (by decide)).2
      rfl (by norm_num)).1

theorem vs16Adj_nonneg (wm : WidthModel) (last : Option Char) :
    0 ≤ vs16Adj wm last := by
  cases last with
  | none => simp [vs16Adj]
  | some x =>
    simp only [vs16Adj]
    split <;> norm_num

theorem wcswidthAux_cons (wm : WidthModel) (c : Char) (rest : List Char)
    (last : Option Char) (acc : Int) :
    wcswidthAux wm (c :: rest) last acc =
      if c = zwjChar then
        (match rest with
         | [] => acc
         | _ :: rest2 => wcswidthAux wm rest2 last acc)
      else if c = vs16Char ∧ last ≠ none then
        wcswidthAux wm rest none (acc + vs16Adj wm last)
      else if wm.wcw c < 0 then wm.wcw c
      else wcswidthAux wm rest (if 0 < wm.wcw c then some c else last)
        (acc + wm.wcw c) := by
  cases rest <;> rfl

theorem wcswidthAux_nonneg (wm : WidthModel) :
    ∀ (N : Nat) (l : List Char) (last : Option Char) (acc : Int), l.length ≤ N →
      (∀ c ∈ l, 0 ≤ wm.wcw c) → 0 ≤ acc → 0 ≤ wcswidthAux wm l last acc := by
  intro N
  induction N with
  | zero =>
    intro l last acc hlen _ hacc
    have : l = [] := List.length_eq_zero.mp (Nat.le_zero.mp hlen)
    subst this
    simpa [wcswidthAux] using hacc
  | succ n ih =>
    intro l last acc hlen hmem hacc
    cases l with
    | nil => simpa [wcswidthAux] using hacc
    | cons c rest =>
      rw [wcswidthAux_cons]
      by_cases hz : c = zwjChar
      · rw [if_pos hz]
        cases rest with
        | nil => exact hacc
        | cons x rest2 =>
          exact ih rest2 last acc (by simp at hlen ⊢; omega)
            (fun d hd => hmem d (by simp [hd])) hacc
      · rw [if_neg hz]
        by_cases hvs : c = vs16Char ∧ last ≠ none
        · rw [if_pos hvs]
          exact ih rest none _ (by simp at hlen ⊢; omega)
            (fun d hd => hmem d (List.mem_cons_of_mem _ hd))
            (by have := vs16Adj_nonneg wm last; omega)
        · rw [if_neg hvs]
          have hc : 0 ≤ wm.wcw c := hmem c (by simp)
          rw [if_neg (by omega : ¬ wm.wcw c < 0)]
          exact ih rest _ _ (by simp at hlen ⊢; omega)
            (fun d hd => hmem d (List.mem_cons_of_mem _ hd)) (by omega)

/-- C2: `Sequence.length()` never returns a negative value (for any registry
and any string, under the wcwidth contract that only the control characters
removed by the translation table have negative width). -/
theorem c2_length_nonneg (wm : WidthModel) (term : Terminal) (s : List Char)
    (v : Int) (hwcw : ∀ c, isCtrl c = false → 0 ≤ wm.wcw c)
    (h : seqLength wm term s = .ok v) : 0 ≤ v := by
  unfold seqLength at h
  cases hp : padd term true s with
  | error e => rw [hp] at h; simp [Except.map] at h
  | ok out =>
    rw [hp] at h
    simp only [Except.map, Except.ok.injEq] at h
    subst h
    refine wcswidthAux_nonneg wm (ctrlTranslate out).length _ none 0 le_rfl ?_ (by omega)
    intro c hc
    have : isCtrl c = false := by
      simp only [ctrlTranslate, List.mem_filter, Bool.not_eq_true'] at hc
      exact hc.2
    exact hwcw c this

unseal paddCore subEmpty hasCapMatch in
/-- Witness for C2: `"ab\bc"` has measured length 2 under the standard width
model, and the theorem yields its non-negativity. -/
theorem c2_witness : (0 : Int) ≤ 2 ∧ seqLength wmStd demoTerm ("ab\x08c".data) = .ok 2 :=
  ⟨c2_length_nonneg wmStd demoTerm ("ab\x08c".data) 2
    (fun c h => by simp [wmStd, h]) (by decide), by decide⟩

theorem truncGo_snd_suffix (wm : WidthModel) (target : Int) :
    ∀ (ts : List Tok) (outp : List Char) (cw : Int) (last : Option Char) (skip : Bool),
      (truncGo wm target ts outp cw last skip).2 <:+ ts := by
  intro ts
  induction ts with
  | nil => intro outp cw last skip; simp [truncGo]
  | cons tk ts ih =>
    intro outp cw last skip
    obtain ⟨text, cap⟩ := tk
    have hsuf : ∀ (o : List Char) (cw2 : Int) (l2 : Option Char) (sk : Bool),
        (truncGo wm target ts o cw2 l2 sk).2 <:+ (text, cap) :: ts :=
      fun o cw2 l2 sk => (ih o cw2 l2 sk).trans (List.suffix_cons _ _)
    have hself : ts <:+ (text, cap) :: ts := List.suffix_cons _ _
    cases cap with
    | some t => simpa only [truncGo] using hsuf _ _ _ _
    | none =>
      cases text with
      | nil => simpa only [truncGo] using hsuf _ _ _ _
      | cons c text2 =>
        cases text2 with
        | cons d text3 => simpa only [truncGo] using hsuf _ _ _ _
        | nil =>
          simp only [truncGo]
          split_ifs <;> first
            | exact hsuf _ _ _ _
            | simp

theorem truncGo_fst_extends (wm : WidthModel) (target : Int) :
    ∀ (ts : List Tok) (outp : List Char) (cw : Int) (last : Option Char) (skip : Bool),
      outp <+: (truncGo wm target ts outp cw last skip).1 := by
  intro ts
  induction ts with
  | nil => intro outp cw last skip; simp [truncGo]
  | cons tk ts ih =>
    intro outp cw last skip
    obtain ⟨text, cap⟩ := tk
    have hext : ∀ (add : List Char) (cw2 : Int) (l2 : Option Char) (sk : Bool),
        outp <+: (truncGo wm target ts (outp ++ add) cw2 l2 sk).1 :=
      fun add cw2 l2 sk => (List.prefix_append outp add).trans (ih (outp ++ add) cw2 l2 sk)
    cases cap with
    | some t => simpa only [truncGo] using hext _ _ _ _
    | none =>
      cases text with
      | nil => simpa only [truncGo] using hext _ _ _ _
      | cons c text2 =>
        cases text2 with
        | cons d text3 => simpa only [truncGo] using hext _ _ _ _
        | nil =>
          simp only [truncGo]
          split_ifs <;> first
            | exact hext _ _ _ _
            | simp

unseal paddCore subEmpty hasCapMatch iterParse in
/-- C4: once the printable budget is exhausted no further printable
characters are consumed but every capability sequence in the untruncated tail
is still appended — `truncate` returns the consumed output followed by
exactly the capability texts of the unconsumed token suffix; and the concrete
scenario: a zero-horizontal-distance color-start sequence, 5 visible
characters and a reset sequence, truncated to width 3, yields the color-start
sequence, the first 3 characters and the reset sequence. -/
theorem c4_truncate_tail_caps :
    (∀ (wm : WidthModel) (term : Terminal) (s : List Char) (w : Int) (data : List Char),
      padd term false s = .ok data →
      seqTruncate wm term s w =
        .ok ((truncGo wm w (iterParse term data) [] 0 none false).1 ++
          capTextsJoin (truncGo wm w (iterParse term data) [] 0 none false).2) ∧
      (truncGo wm w (iterParse term data) [] 0 none false).2 <:+ iterParse term data) ∧
    seqTruncate wmStd colorTerm ("\x1b[31mhello\x1b[0m".data) 3 =
      .ok ("\x1b[31mhel\x1b[0m".data) := by
  constructor
  · intro wm term s w data h
    exact ⟨by simp [seqTruncate, h, Except.map], truncGo_snd_suffix wm w _ _ _ _ _⟩
  · decide

unseal paddCore subEmpty hasCapMatch iterParse in
/-- Witness for C4 at the color registry and width 5. -/
theorem c4_witness :
    seqTruncate wmStd colorTerm ("\x1b[31mhello\x1b[0m".data) 5 =
      .ok ((truncGo wmStd 5 (iterParse colorTerm ("\x1b[31mhello\x1b[0m".data)) [] 0 none false).1 ++
        capTextsJoin (truncGo wmStd 5 (iterParse colorTerm ("\x1b[31mhello\x1b[0m".data)) [] 0 none false).2) ∧
    (truncGo wmStd 5 (iterParse colorTerm ("\x1b[31mhello\x1b[0m".data)) [] 0 none false).2 <:+
      iterParse colorTerm ("\x1b[31mhello\x1b[0m".data) :=
  c4_truncate_tail_caps.1 wmStd colorTerm _ 5 _ (by decide)

/-- C7: wrapping fails fast with an invalid-configuration error, before any
line is produced and for every chunk list, whenever the target width is not
positive, or a maximum line count is configured and the relevant indent plus
the left-stripped placeholder exceed the target width. -/
theorem c7_wrap_validation :
    (∀ (wm : WidthModel) (term : Terminal) (cfg : WrapConfig)
        (chunks : List (List Char)), cfg.width ≤ 0 →
      wrapChunks wm term cfg chunks = .error .valueError) ∧
    (∀ (wm : WidthModel) (term : Terminal) (cfg : WrapConfig)
        (chunks : List (List Char)) (m : Int), cfg.max_lines = some m →
      (((if 1 < m then cfg.subsequent_indent else cfg.initial_indent).length : Int) +
        (pyLStrip cfg.placeholder).length > cfg.width) →
      wrapChunks wm term cfg chunks = .error .valueError) := by
  constructor
  · intro wm term cfg chunks h
    simp [wrapChunks, h]
  · intro wm term cfg chunks m hm h
    by_cases hw : cfg.width ≤ 0
    · simp [wrapChunks, hw]
    · simp only [wrapChunks, if_neg hw, hm]
      rw [if_pos h]

/-- Witness for C7: a zero width fails, and so does width 3 with
`max_lines = 1` and the default placeholder `" [...]"`. -/
theorem c7_witness :
    wrapChunks wmStd demoTerm { width := 0 } [] = .error .valueError ∧
    wrapChunks wmStd demoTerm { width := 3, max_lines := some 1 } [] =
      .error .valueError :=
  ⟨c7_wrap_validation.1 wmStd demoTerm { width := 0 } [] (by norm_num),
   c7_wrap_validation.2 wmStd demoTerm { width := 3, max_lines := some 1 } [] 1
     rfl (by decide)⟩

unseal paddCore subEmpty hasCapMatch iterParse in
/-- C9: whether a chunk is whitespace-only is decided on its
sequence-stripped form.  A chunk consisting entirely of capability sequences
(stripping yields the empty string) is, under `drop_whitespace`, (i) dropped
at the start of every non-first line, (ii) dropped from the end of every
completed line with its measured length subtracted, and (iii) consequently
its capability sequences do not appear in the wrapped output lines, as the
concrete run shows. -/
theorem c9_seq_only_chunks :
    (∀ (term : Terminal) (cfg : WrapConfig) (lines : List (List Char))
        (c : List Char) (rest : List (List Char)),
      cfg.drop_whitespace = true → lines ≠ [] → stripSeqs term c = .ok [] →
      dropLeadingWS term cfg lines (c :: rest) = .ok rest) ∧
    (∀ (wm : WidthModel) (term : Terminal) (cfg : WrapConfig)
        (cur_line : List (List Char)) (c : List Char) (cur_len L : Int),
      cfg.drop_whitespace = true → stripSeqs term c = .ok [] →
      seqLength wm term c = .ok L →
      dropTrailingWS wm term cfg (cur_line ++ [c]) cur_len =
        .ok (cur_line, cur_len - L)) ∧
    wrapChunks wmStd colorTerm
      { width := 2, break_long_words := false }
      [("aaa".data), ("\x1b[31m".data), ("bb".data)] =
        .ok [("aaa".data), ("bb".data)] := by
  refine ⟨?_, ?_, ?_⟩
  · intro term cfg lines c rest hdw hlines hstrip
    simp [dropLeadingWS, hdw, hlines, seqStrip, hstrip, Except.map, pyStrip,
      pyLStrip, pyRStrip, Bind.bind, Except.bind]
  · intro wm term cfg cur_line c cur_len L hdw hstrip hlen
    have hne : cur_line ++ [c] ≠ [] := by simp
    simp [dropTrailingWS, hdw, hne, seqStrip, hstrip, hlen, Except.map,
      pyStrip, pyLStrip, pyRStrip, List.getLast?_concat, List.dropLast_concat,
      Bind.bind, Except.bind]
  · decide

theorem padd_no_match (term : Terminal) (strip : Bool) (s : List Char)
    (h : hasCapMatch term.caps s = false) : padd term strip s = .ok s := by
  simp [padd, h]

theorem hasCapMatch_cons (caps : List Termcap) (c : Char) (rest : List Char) :
    hasCapMatch caps (c :: rest) =
      ((findCapMatch caps c rest).isSome || hasCapMatch caps rest) := by
  simp [hasCapMatch]

theorem iterParse_all_none (term : Terminal) :
    ∀ (s : List Char), hasCapMatch term.caps s = false →
      ∀ tk ∈ iterParse term s, tk.2 = (none : Option Termcap) := by
  intro s
  induction s using iterParse.induct term with
  | case1 => simp [iterParse]
  | case2 c rest t n g hfind ih =>
    intro h
    rw [hasCapMatch_cons, hfind] at h
    simp at h
  | case3 c rest hfind ih =>
    intro h
    rw [hasCapMatch_cons, hfind] at h
    simp only [Option.isSome_none, Bool.false_or] at h
    simp only [iterParse, hfind, List.mem_cons]
    rintro tk (rfl | htk)
    · rfl
    · exact ih h tk htk

theorem capTextsJoin_all_none (ts : List Tok)
    (h : ∀ tk ∈ ts, tk.2 = (none : Option Termcap)) : capTextsJoin ts = [] := by
  induction ts with
  | nil => rfl
  | cons tk ts ih =>
    have h1 : tk.2 = none := h tk (by simp)
    simp only [capTextsJoin, List.filterMap_cons, h1, Option.isSome_none,
      Bool.false_eq_true, if_false]
    exact ih fun x hx => h x (List.mem_cons_of_mem _ hx)

theorem hasCapMatch_nil_caps : ∀ (s : List Char), hasCapMatch [] s = false := by
  intro s
  induction s with
  | nil => simp [hasCapMatch]
  | cons c rest ih => simp [hasCapMatch_cons, findCapMatch, ih]

theorem wcswidthAux_ge_acc (wm : WidthModel) :
    ∀ (N : Nat) (l : List Char) (last : Option Char) (acc : Int), l.length ≤ N →
      (∀ c ∈ l, 0 ≤ wm.wcw c) → acc ≤ wcswidthAux wm l last acc := by
  intro N
  induction N with
  | zero =>
    intro l last acc hlen _
    have : l = [] := List.length_eq_zero.mp (Nat.le_zero.mp hlen)
    subst this
    simp [wcswidthAux]
  | succ n ih =>
    intro l last acc hlen hmem
    cases l with
    | nil => simp [wcswidthAux]
    | cons c rest =>
      rw [wcswidthAux_cons]
      by_cases hz : c = zwjChar
      · rw [if_pos hz]
        cases rest with
        | nil => exact le_refl acc
        | cons x rest2 =>
          exact ih rest2 last acc (by simp at hlen ⊢; omega)
            (fun d hd => hmem d (by simp [hd]))
      · rw [if_neg hz]
        by_cases hvs : c = vs16Char ∧ last ≠ none
        · rw [if_pos hvs]
          have := ih rest none (acc + vs16Adj wm last) (by simp at hlen ⊢; omega)
            (fun d hd => hmem d (List.mem_cons_of_mem _ hd))
          have := vs16Adj_nonneg wm last
          omega
        · rw [if_neg hvs]
          have hc : 0 ≤ wm.wcw c := hmem c (by simp)
          rw [if_neg (by omega : ¬ wm.wcw c < 0)]
          have := ih rest (if 0 < wm.wcw c then some c else last) (acc + wm.wcw c)
            (by simp at hlen ⊢; omega)
            (fun d hd => hmem d (List.mem_cons_of_mem _ hd))
          omega

theorem wcswidthAux_append_mono (wm : WidthModel) :
    ∀ (N : Nat) (xs zs : List Char) (last : Option Char) (acc : Int),
      xs.length ≤ N → (∀ c ∈ xs, 0 ≤ wm.wcw c) → (∀ c ∈ zs, 0 ≤ wm.wcw c) →
      wcswidthAux wm xs last acc ≤ wcswidthAux wm (xs ++ zs) last acc := by
  intro N
  induction N with
  | zero =>
    intro xs zs last acc hlen _ hzs
    have : xs = [] := List.length_eq_zero.mp (Nat.le_zero.mp hlen)
    subst this
    simpa [wcswidthAux] using wcswidthAux_ge_acc wm zs.length zs last acc le_rfl hzs
  | succ n ih =>
    intro xs zs last acc hlen hxs hzs
    cases xs with
    | nil =>
      simpa [wcswidthAux] using wcswidthAux_ge_acc wm zs.length zs last acc le_rfl hzs
    | cons c xs2 =>
      rw [List.cons_append, wcswidthAux_cons, wcswidthAux_cons]
      by_cases hz : c = zwjChar
      · rw [if_pos hz, if_pos hz]
        cases xs2 with
        | nil =>
          cases zs with
          | nil => simp
          | cons z zs2 =>
            simpa using wcswidthAux_ge_acc wm zs2.length zs2 last acc le_rfl
              (fun d hd => hzs d (List.mem_cons_of_mem _ hd))
        | cons x xs3 =>
          exact ih xs3 zs last acc (by simp at hlen ⊢; omega)
            (fun d hd => hxs d (by simp [hd])) hzs
      · rw [if_neg hz, if_neg hz]
        by_cases hvs : c = vs16Char ∧ last ≠ none
        · rw [if_pos hvs, if_pos hvs]
          exact ih xs2 zs none (acc + vs16Adj wm last) (by simp at hlen ⊢; omega)
            (fun d hd => hxs d (List.mem_cons_of_mem _ hd)) hzs
        · rw [if_neg hvs, if_neg hvs]
          have hc : 0 ≤ wm.wcw c := hxs c (by simp)
          rw [if_neg (by omega : ¬ wm.wcw c < 0), if_neg (by omega : ¬ wm.wcw c < 0)]
          exact ih xs2 zs _ (acc + wm.wcw c) (by simp at hlen ⊢; omega)
            (fun d hd => hxs d (List.mem_cons_of_mem _ hd)) hzs

theorem wcswidthModel_prefix_mono (wm : WidthModel) (xs ys : List Char)
    (hpre : xs <+: ys) (hys : ∀ c ∈ ys, 0 ≤ wm.wcw c) :
    wcswidthModel wm xs ≤ wcswidthModel wm ys := by
  obtain ⟨zs, rfl⟩ := hpre
  exact wcswidthAux_append_mono wm xs.length xs zs none 0 le_rfl
    (fun d hd => hys d (List.mem_append_left _ hd)) 
    (fun d hd => hys d (List.mem_append_right _ hd))

theorem truncGo_fst_prefix_texts (wm : WidthModel) (target : Int) :
    ∀ (ts : List Tok) (outp : List Char) (cw : Int) (last : Option Char) (skip : Bool),
      (truncGo wm target ts outp cw last skip).1 <+: outp ++ tokTexts ts := by
  intro ts
  induction ts with
  | nil => intro outp cw last skip; simp [truncGo, tokTexts]
  | cons tk ts ih =>
    intro outp cw last skip
    obtain ⟨text, cap⟩ := tk
    have hstep : ∀ (cw2 : Int) (l2 : Option Char) (sk : Bool),
        (truncGo wm target ts (outp ++ text) cw2 l2 sk).1 <+:
          outp ++ tokTexts ((text, cap) :: ts) := by
      intro cw2 l2 sk
      have := ih (outp ++ text) cw2 l2 sk
      simpa [tokTexts, List.append_assoc] using this
    have hstop : outp <+: outp ++ tokTexts ((text, cap) :: ts) := List.prefix_append _ _
    cases cap with
    | some t => simpa only [truncGo] using hstep _ _ _
    | none =>
      cases text with
      | nil => simpa only [truncGo] using hstep _ _ _
      | cons c text2 =>
        cases text2 with
        | cons d text3 => simpa only [truncGo] using hstep _ _ _
        | nil =>
          simp only [truncGo]
          split_ifs <;> first
            | exact hstep _ _ _
            | exact hstop

theorem truncGo_fst_mono (wm : WidthModel) (w1 w2 : Int) (hw : w1 ≤ w2) :
    ∀ (ts : List Tok) (outp : List Char) (cw : Int) (last : Option Char) (skip : Bool),
      (truncGo wm w1 ts outp cw last skip).1 <+: (truncGo wm w2 ts outp cw last skip).1 := by
  intro ts
  induction ts with
  | nil => intro outp cw last skip; simp [truncGo]
  | cons tk ts ih =>
    intro outp cw last skip
    obtain ⟨text, cap⟩ := tk
    cases cap with
    | some t => simpa only [truncGo] using ih _ _ _ _
    | none =>
      cases text with
      | nil => simpa only [truncGo] using ih _ _ _ _
      | cons c text2 =>
        cases text2 with
        | cons d text3 => simpa only [truncGo] using ih _ _ _ _
        | nil =>
          simp only [truncGo]
          by_cases hz : c = zwjChar
          · simp only [if_pos hz]; exact ih _ _ _ _
          · simp only [if_neg hz]
            by_cases hsk : skip
            · simp only [if_pos hsk]; exact ih _ _ _ _
            · simp only [if_neg hsk]
              by_cases hvs : c = vs16Char ∧ last ≠ none
              · simp only [if_pos hvs]
                by_cases h2 : w2 < cw + vs16Adj wm last
                · simp only [if_pos (by omega : w1 < cw + vs16Adj wm last), if_pos h2]
                  exact List.prefix_refl _
                · by_cases h1 : w1 < cw + vs16Adj wm last
                  · simp only [if_pos h1, if_neg h2]
                    exact (List.prefix_append outp [c]).trans
                      (truncGo_fst_extends wm w2 ts (outp ++ [c]) _ _ _)
                  · simp only [if_neg h1, if_neg h2]; exact ih _ _ _ _
              · simp only [if_neg hvs]
                by_cases h2 : w2 < cw + max (wm.wcw c) 0
                · simp only [if_pos (by omega : w1 < cw + max (wm.wcw c) 0), if_pos h2]
                  exact List.prefix_refl _
                · by_cases h1 : w1 < cw + max (wm.wcw c) 0
                  · simp only [if_pos h1, if_neg h2]
                    exact (List.prefix_append outp [c]).trans
                      (truncGo_fst_extends wm w2 ts (outp ++ [c]) _ _ _)
                  · simp only [if_neg h1, if_neg h2]; exact ih _ _ _ _

unseal paddCore subEmpty hasCapMatch iterParse in
/-- Counterexample to C3 as stated: under the registry `[eCap, dCap]`
(a literal `b\x1bD0` of distance -2 and a parameterized `\x1bD(\d+)` of
per-unit distance -1), truncating `"abc\x1bD0"` to width 2 splices `b`
against the kept zero-distance sequence `\x1bD0`, creating a fresh `eCap`
match whose erasure empties the string at measuring time: the printable
width of `truncate(s, 1)` is 3 while that of `truncate(s, 2)` is 0, although
`1 ≤ 2`. -/
theorem c3_counterexample :
    (1 : Int) ≤ 2 ∧
    seqTruncate wmStd term3 ("abc\x1bD0".data) 1 = .ok ("a\x1bD0".data) ∧
    seqTruncate wmStd term3 ("abc\x1bD0".data) 2 = .ok ("ab\x1bD0".data) ∧
    seqLength wmStd term3 ("a\x1bD0".data) = .ok 3 ∧
    seqLength wmStd term3 ("ab\x1bD0".data) = .ok 0 ∧
    ¬ ((3 : Int) ≤ 0) :=
  ⟨by norm_num, by decide, by decide, by decide, by decide, by norm_num⟩

/-- C3 amended: for sequence-free input (no capability pattern matches in
`s` or any of its prefixes), the printable width of `truncate(s, w1)` is at
most that of `truncate(s, w2)` for `w1 ≤ w2`, which is at most the printable
width of `s` (under the wcwidth contract on the width model).  For strings
containing capability sequences the chain can fail: truncation can splice a
new capability match into the output, as the counterexample shows. -/
theorem c3_truncate_monotone (wm : WidthModel) (term : Terminal) (s : List Char)
    (w1 w2 : Int) (t1 t2 : List Char) (l1 l2 ls : Int)
    (hwcw : ∀ c, isCtrl c = false → 0 ≤ wm.wcw c)
    (hnc : ∀ p, p <+: s → hasCapMatch term.caps p = false)
    (hw : w1 ≤ w2)
    (ht1 : seqTruncate wm term s w1 = .ok t1)
    (ht2 : seqTruncate wm term s w2 = .ok t2)
    (hl1 : seqLength wm term t1 = .ok l1)
    (hl2 : seqLength wm term t2 = .ok l2)
    (hls : seqLength wm term s = .ok ls) :
    l1 ≤ l2 ∧ l2 ≤ ls := by
  have hs : hasCapMatch term.caps s = false := hnc s (List.prefix_refl s)
  have hpf : padd term false s = .ok s := padd_no_match term false s hs
  have hnone := iterParse_all_none term s hs
  have htr : ∀ (w : Int) (t : List Char), seqTruncate wm term s w = .ok t →
      t = (truncGo wm w (iterParse term s) [] 0 none false).1 := by
    intro w t ht
    rw [seqTruncate, hpf] at ht
    simp only [Except.map, Except.ok.injEq] at ht
    have hcj : capTextsJoin (truncGo wm w (iterParse term s) [] 0 none false).2 = [] :=
      capTextsJoin_all_none _ (fun tk htk =>
        hnone tk ((truncGo_snd_suffix wm w _ _ _ _ _).subset htk))
    rw [← ht, hcj, List.append_nil]
  have ht1e := htr w1 t1 ht1
  have ht2e := htr w2 t2 ht2
  have h12 : t1 <+: t2 := by
    rw [ht1e, ht2e]
    exact truncGo_fst_mono wm w1 w2 hw _ _ _ _ _
  have h2s : t2 <+: s := by
    rw [ht2e]
    have := truncGo_fst_prefix_texts wm w2 (iterParse term s) [] 0 none false
    simpa [iterParse_tokTexts] using this
  have h1s : t1 <+: s := h12.trans h2s
  have hlen : ∀ (t : List Char) (l : Int), t <+: s → seqLength wm term t = .ok l →
      l = wcswidthModel wm (ctrlTranslate t) := by
    intro t l hts hl
    have hc : hasCapMatch term.caps t = false := hnc t hts
    rw [seqLength, padd_no_match term true t hc] at hl
    simp only [Except.map, Except.ok.injEq] at hl
    exact hl.symm
  have e1 := hlen t1 l1 h1s hl1
  have e2 := hlen t2 l2 h2s hl2
  have es := hlen s ls (List.prefix_refl s) hls
  have hmem : ∀ c ∈ ctrlTranslate s, 0 ≤ wm.wcw c := by
    intro c hc
    have : isCtrl c = false := by
      simp only [ctrlTranslate, List.mem_filter, Bool.not_eq_true'] at hc
      exact hc.2
    exact hwcw c this
  constructor
  · rw [e1, e2]
    exact wcswidthModel_prefix_mono wm _ _ (h12.filter _)
      (fun d hd => hmem d ((h2s.filter _).subset hd))
  · rw [e2, es]
    exact wcswidthModel_prefix_mono wm _ _ (h2s.filter _) hmem

unseal paddCore subEmpty hasCapMatch iterParse in
/-- Witness for the amended C3: plain `"abc"` under the empty registry,
truncated to widths 1 and 2, gives widths 1 ≤ 2 ≤ 3. -/
theorem c3_witness : (1 : Int) ≤ 2 ∧ (2 : Int) ≤ 3 :=
  c3_truncate_monotone wmStd emptyTerm ("abc".data) 1 2 ("a".data) ("ab".data) 1 2 3
    (fun c h => by simp [wmStd, h]) (fun p _ => hasCapMatch_nil_caps p) (by norm_num)
    (by decide) (by decide) (by decide) (by decide) (by decide)

unseal paddCore subEmpty hasCapMatch iterParse in
/-- Witness for C1: tokenizing `"a\bc"` under the demo registry reproduces
the input, and the backspace token's descriptor is a registry capability. -/
theorem c1_witness :
    tokTexts (iterParse demoTerm ("a\x08c".data)) = ("a\x08c".data) ∧
    cub1Cap ∈ demoTerm.caps :=
  ⟨(c1_iterParse_partition demoTerm ("a\x08c".data)).1,
   ((c1_iterParse_partition demoTerm ("a\x08c".data)).2
     (['\x08'], some cub1Cap)
     (by rw [show iterParse demoTerm ("a\x08c".data) =
           [(['a'], none), (['\x08'], some cub1Cap), (['c'], none)] from rfl]
         simp)).2 cub1Cap rfl⟩

unseal paddCore subEmpty hasCapMatch in
/-- Witness for C9: a chunk holding only the color-start sequence is dropped
at the start of a non-first line. -/
theorem c9_witness :
    dropLeadingWS colorTerm { width := 2 } [("x".data)]
      (("\x1b[31m".data) :: [("bb".data)]) = .ok [("bb".data)] :=
  c9_seq_only_chunks.1 colorTerm { width := 2 } [("x".data)] ("\x1b[31m".data)
    [("bb".data)] rfl (by simp) (by decide)
